import Mathlib

/-
Verification development for the asynchronous Logger
(src/logger.hpp, src/logger.cpp).

The embedding is shallow:
* the lock-free queue lock_free::que<T> is modelled by the list of queued
  entries, newest first, exactly as the intrusive chain stores them
  (push links a fresh node in front of the current head; dump_que
  exchanges the head with null and hands the whole chain out);
* Logger::Log, Logger::dump_que, the constructor, Logger::SetLogFile and
  Logger::ExitLogger are translated function by function;
* the chain-pointer mechanics of Logger::get_tail and the backward walk of
  Logger::dump_que are modelled separately on node identifiers with an
  explicit prev-pointer map;
* the mutex/lock behaviour of a dump_que pass is modelled as an event trace;
* machine-level aspects (real clocks, the text of timestamps, actual file
  descriptors) are external inputs of the model.
-/

namespace LoggerModel

/-- The four-entry severity name table inside severity_to_str
(src/logger.hpp): Trace = 0, Debug = 1, Info = 2, Error = 3. -/
def severity_names : List String := ["Trace", "Debug", "Info", "Error"]

/-- severity_to_str indexes the name table with the raw severity value and
performs no bounds check; an out-of-range index is modelled as none
(the undefined out-of-bounds access). -/
def severity_to_str (level : Int) : Option String :=
  if level < 0 then none else severity_names.get? level.toNat

/-- The argument check at the top of Logger::Log: the call is accepted only
when the severity lies in the enumerated range [Trace, Error] = [0, 3] and
the text is non-empty (the source rejects on
level < Trace || Error < level || msg.empty()). -/
def validLog (level : Int) (msg : String) : Bool :=
  !(decide (level < 0) || decide (3 < level) || msg == "")

/-- A queued record: node identity (the push sequence number, standing for
the node address), severity and text. The record itself is immutable. -/
structure Entry where
  id : Nat
  level : Int
  text : String
deriving DecidableEq

/-- Observable state of one Logger: the queue chain (newest first), the
union of all lines written so far across the destinations active during the
run, and the number of side-channel warnings for rejected Log calls. -/
structure LogState where
  que : List Entry
  out : List Entry
  warns : Nat
deriving DecidableEq

/-- Freshly constructed Logger: empty queue, nothing written, no warnings. -/
def initState : LogState := ⟨[], [], 0⟩

/-- Logger::Log with threshold T: invalid arguments are rejected with a
side-channel warning and nothing is enqueued; valid arguments are enqueued
(que.push, which links the new node in front of the head) iff
level >= current_level. The function is total: nothing propagates to the
caller. -/
def LogCall (T : Int) (s : LogState) (i : Nat) (level : Int) (msg : String) :
    LogState :=
  if validLog level msg then
    if T ≤ level then { s with que := ⟨i, level, msg⟩ :: s.que } else s
  else
    { s with warns := s.warns + 1 }

/-- One que.dump_que (takeAll) followed by Logger::dump_que: the detached
chain is newest-first, the pass writes it oldest-first and releases every
node, and the queue is left empty for the producers. -/
def drainQue (s : LogState) : LogState :=
  { s with que := [], out := s.out ++ s.que.reverse }

/-- An observable operation of a run: a Log call from a producer, or one drain
cycle of the background worker. -/
inductive Op where
  | log (level : Int) (msg : String)
  | cycle
deriving DecidableEq

/-- Run the operations in order; i numbers the operations so that each
pushed node has a distinct identity. -/
def runFrom (T : Int) : Nat → LogState → List Op → LogState
  | _, s, [] => s
  | i, s, Op.log l m :: ops => runFrom T (i + 1) (LogCall T s i l m) ops
  | i, s, Op.cycle :: ops => runFrom T (i + 1) (drainQue s) ops

/-- A complete run: the operations, then the final takeAll-plus-dump pass
that Logger::ExitLogger forces before joining the worker. -/
def stopRun (T : Int) (ops : List Op) : LogState :=
  drainQue (runFrom T 0 initState ops)

/-- The accepted records of a run, in chronological order: every Log call
that passes validation and the threshold contributes exactly one entry. -/
def acceptedFrom (T : Int) : Nat → List Op → List Entry
  | _, [] => []
  | i, Op.log l m :: ops =>
      (if validLog l m ∧ T ≤ l then [⟨i, l, m⟩] else [])
        ++ acceptedFrom T (i + 1) ops
  | i, Op.cycle :: ops => acceptedFrom T (i + 1) ops

/-- Accepted records of a run, counted from operation 0. -/
def accepted (T : Int) (ops : List Op) : List Entry := acceptedFrom T 0 ops

/-- The constructor Logger(int timeout, Severity level): throws on a level
outside [Trace, Error] and then on a negative timeout, otherwise stores the
pair. -/
inductive ConfigError where
  | invalidLevel
  | negativeTimeout
deriving DecidableEq

/-- Logger(int timeout, Severity level) translated: the sanity checks of the
constructor body, in source order. -/
def mkLogger (timeout : Int) (level : Int) : Except ConfigError (Int × Int) :=
  if level < 0 ∨ 3 < level then Except.error ConfigError.invalidLevel
  else if timeout < 0 then Except.error ConfigError.negativeTimeout
  else Except.ok (timeout, level)

theorem runFrom_out_append (T : Int) :
    ∀ (ops : List Op) (i : Nat) (s : LogState),
      (runFrom T i s ops).out ++ (runFrom T i s ops).que.reverse
        = s.out ++ s.que.reverse ++ acceptedFrom T i ops := by
  intro ops
  induction ops with
  | nil => intro i s; simp [runFrom, acceptedFrom]
  | cons op ops ih =>
      intro i s
      cases op with
      | log l m =>
          by_cases hv : validLog l m = true
          · by_cases hT : T ≤ l
            · simp only [runFrom, acceptedFrom, ih, LogCall, hv, hT, if_true,
                if_pos]
              simp [List.append_assoc]
            · simp only [runFrom, acceptedFrom, ih, LogCall, hv, hT, if_true]
              simp [hT, hv]
          · simp only [runFrom, acceptedFrom, ih, LogCall, hv]
            simp [hv]
      | cycle =>
          simp only [runFrom, acceptedFrom, ih, drainQue]
          simp

/-- After the final drain pass, the output is exactly the list of accepted
records in chronological order. -/
theorem stopRun_out (T : Int) (ops : List Op) :
    (stopRun T ops).out = accepted T ops := by
  have h := runFrom_out_append T ops 0 initState
  simp only [stopRun, drainQue, accepted]
  simpa [initState] using h

theorem acceptedFrom_id_ge (T : Int) :
    ∀ (ops : List Op) (i : Nat), ∀ e ∈ acceptedFrom T i ops, i ≤ e.id := by
  intro ops
  induction ops with
  | nil => intro i e he; simp [acceptedFrom] at he
  | cons op ops ih =>
      intro i e he
      cases op with
      | log l m =>
          simp only [acceptedFrom, List.mem_append] at he
          rcases he with he | he
          · split at he
            · simp only [List.mem_singleton] at he
              subst he
              exact Nat.le_refl i
            · simp at he
          · exact Nat.le_of_succ_le (ih (i + 1) e he)
      | cycle =>
          simp only [acceptedFrom] at he
          exact Nat.le_of_succ_le (ih (i + 1) e he)

theorem acceptedFrom_id_lt (T : Int) :
    ∀ (ops : List Op) (i : Nat), ∀ e ∈ acceptedFrom T i ops,
      e.id < i + ops.length := by
  intro ops
  induction ops with
  | nil => intro i e he; simp [acceptedFrom] at he
  | cons op ops ih =>
      intro i e he
      cases op with
      | log l m =>
          simp only [acceptedFrom, List.mem_append] at he
          rcases he with he | he
          · split at he
            · simp only [List.mem_singleton] at he
              subst he
              simp
            · simp at he
          · have := ih (i + 1) e he
            simp only [List.length_cons]
            omega
      | cycle =>
          simp only [acceptedFrom] at he
          have := ih (i + 1) e he
          simp only [List.length_cons]
          omega

theorem acceptedFrom_nodup (T : Int) :
    ∀ (ops : List Op) (i : Nat), (acceptedFrom T i ops).Nodup := by
  intro ops
  induction ops with
  | nil => intro i; simp [acceptedFrom]
  | cons op ops ih =>
      intro i
      cases op with
      | log l m =>
          simp only [acceptedFrom]
          split
          · simp only [List.singleton_append, List.nodup_cons]
            refine ⟨fun hmem => ?_, ih (i + 1)⟩
            have := acceptedFrom_id_ge T ops (i + 1) _ hmem
            simp at this
          · simpa using ih (i + 1)
      | cycle => simpa [acceptedFrom] using ih (i + 1)

theorem acceptedFrom_append (T : Int) :
    ∀ (xs ys : List Op) (i : Nat),
      acceptedFrom T i (xs ++ ys)
        = acceptedFrom T i xs ++ acceptedFrom T (i + xs.length) ys := by
  intro xs
  induction xs with
  | nil => intro ys i; simp [acceptedFrom]
  | cons op xs ih =>
      intro ys i
      have harith : i + 1 + xs.length = i + (op :: xs).length := by
        simp only [List.length_cons]
        omega
      cases op with
      | log l m =>
          simp only [List.cons_append, acceptedFrom, List.append_eq, ih,
            harith, List.append_assoc]
      | cycle =>
          simp only [List.cons_append, acceptedFrom, List.append_eq, ih,
            harith]

theorem acceptedFrom_level_ge (T : Int) :
    ∀ (ops : List Op) (i : Nat), ∀ e ∈ acceptedFrom T i ops, T ≤ e.level := by
  intro ops
  induction ops with
  | nil => intro i e he; simp [acceptedFrom] at he
  | cons op ops ih =>
      intro i e he
      cases op with
      | log l m =>
          simp only [acceptedFrom, List.mem_append] at he
          rcases he with he | he
          · split at he
            on_goal 2 => simp at he
            rename_i hc
            simp only [List.mem_singleton] at he
            subst he
            exact hc.2
          · exact ih (i + 1) e he
      | cycle =>
          simp only [acceptedFrom] at he
          exact ih (i + 1) e he

theorem mem_accepted_middle (T : Int) (pre post : List Op) (l : Int)
    (m : String) (hv : validLog l m = true) :
    ((⟨pre.length, l, m⟩ : Entry) ∈ accepted T (pre ++ Op.log l m :: post)
      ↔ T ≤ l) := by
  unfold accepted
  rw [acceptedFrom_append T pre (Op.log l m :: post) 0]
  simp only [Nat.zero_add, acceptedFrom, List.mem_append]
  constructor
  · intro h
    rcases h with h | h | h
    · have := acceptedFrom_id_lt T pre 0 _ h
      simp at this
    · split at h
      · rename_i hc
        exact hc.2
      · simp at h
    · have := acceptedFrom_id_ge T post (pre.length + 1) _ h
      simp at this
  · intro hT
    refine Or.inr (Or.inl ?_)
    rw [if_pos ⟨hv, hT⟩]
    simp

/-- Claim C1: for every finite sequence of Log calls followed by a completed
Stop, the union of everything written across the run is exactly the list of
accepted records in chronological order, it contains no duplicate node, and
every accepted record is written exactly once (each node is processed once
and never again after its release). -/
theorem c1_no_loss_no_duplication (T : Int) (ops : List Op) :
    (stopRun T ops).out = accepted T ops ∧
    (stopRun T ops).out.Nodup ∧
    ∀ e ∈ accepted T ops, (stopRun T ops).out.count e = 1 := by
  have h := stopRun_out T ops
  have hn : (accepted T ops).Nodup := acceptedFrom_nodup T ops 0
  refine ⟨h, h ▸ hn, fun e he => ?_⟩
  rw [h]
  exact List.count_eq_one_of_mem hn he

theorem c1_witness :
    (stopRun 1 [Op.log 2 "a", Op.cycle, Op.log 1 "b"]).out.count
      ⟨2, 1, "b"⟩ = 1 :=
  (c1_no_loss_no_duplication 1 [Op.log 2 "a", Op.cycle, Op.log 1 "b"]).2.2
    ⟨2, 1, "b"⟩ (by decide)

/-- Claim C5: with threshold T, a valid Log call is enqueued and eventually
written iff its severity is at least T; nothing below the threshold ever
appears in the output; severity exactly T always appears; and a valid call
below the threshold is a complete no-op on the logger state. -/
theorem c5_threshold_filtering (T : Int) (pre post : List Op) (l : Int)
    (m : String) (hv : validLog l m = true) :
    ((⟨pre.length, l, m⟩ : Entry)
        ∈ (stopRun T (pre ++ Op.log l m :: post)).out ↔ T ≤ l) ∧
    (∀ e ∈ (stopRun T (pre ++ Op.log l m :: post)).out, T ≤ e.level) ∧
    (l < T → ∀ (s : LogState) (i : Nat), LogCall T s i l m = s) := by
  refine ⟨?_, ?_, ?_⟩
  · rw [stopRun_out]
    exact mem_accepted_middle T pre post l m hv
  · intro e he
    rw [stopRun_out] at he
    exact acceptedFrom_level_ge T _ 0 e he
  · intro hlt s i
    simp [LogCall, hv, not_le.mpr hlt]

theorem c5_witness :
    (⟨0, 1, "x"⟩ : Entry) ∈ (stopRun 1 [Op.log 1 "x"]).out :=
  (c5_threshold_filtering 1 [] [] 1 "x" (by decide)).1.mpr (by decide)

/-- Claim C7: a Log call whose severity is outside [Trace, Error] or whose
text is empty enqueues nothing, leaves the queue and the output unchanged,
and reports exactly one side-channel warning; the function is total, so
nothing is raised to the caller. -/
theorem c7_invalid_log_is_warned_noop (T : Int) (s : LogState) (i : Nat)
    (level : Int) (msg : String) (h : validLog level msg = false) :
    (LogCall T s i level msg).que = s.que ∧
    (LogCall T s i level msg).out = s.out ∧
    (LogCall T s i level msg).warns = s.warns + 1 := by
  simp [LogCall, h]

theorem c7_witness :
    (LogCall 1 initState 0 7 "x").que = initState.que ∧
    (LogCall 1 initState 0 7 "x").out = initState.out ∧
    (LogCall 1 initState 0 7 "x").warns = initState.warns + 1 :=
  c7_invalid_log_is_warned_noop 1 initState 0 7 "x" (by decide)

/-- Claim C8: the constructor succeeds (returning exactly the given pair)
iff the severity lies in the enumerated range [0, 3] and the timeout is
non-negative; otherwise it fails with the corresponding configuration
error, the severity check coming first as in the source. -/
theorem c8_constructor_validation (timeout level : Int) :
    (mkLogger timeout level = Except.ok (timeout, level) ↔
      (0 ≤ level ∧ level ≤ 3 ∧ 0 ≤ timeout)) ∧
    ((level < 0 ∨ 3 < level) →
      mkLogger timeout level = Except.error ConfigError.invalidLevel) ∧
    ((0 ≤ level ∧ level ≤ 3 ∧ timeout < 0) →
      mkLogger timeout level = Except.error ConfigError.negativeTimeout) := by
  unfold mkLogger
  split_ifs with h1 h2
  · refine ⟨⟨fun h => ?_, fun h => ?_⟩, fun _ => rfl, fun h => ?_⟩
    · simp at h
    · exfalso
      rcases h1 with h1 | h1 <;> omega
    · exfalso
      rcases h1 with h1 | h1 <;> omega
  · refine ⟨⟨fun h => ?_, fun h => ?_⟩, fun h => ?_, fun _ => rfl⟩
    · simp at h
    · exfalso; omega
    · exact absurd h h1
  · rw [not_or] at h1
    refine ⟨⟨fun _ => ?_, fun _ => rfl⟩, fun h => ?_, fun h => ?_⟩
    · refine ⟨by omega, by omega, by omega⟩
    · exfalso
      rcases h with h | h
      · exact h1.1 h
      · exact h1.2 h
    · exact absurd h.2.2 h2

theorem c8_witness : mkLogger 2 1 = Except.ok (2, 1) :=
  (c8_constructor_validation 2 1).1.mpr (by decide)

/-- The prev assignments made by Logger::get_tail walking the detached chain
forward: for every link from a node to its next node, the walk sets the next
prev field of that next node to the current node. Nodes are named by identifiers standing for
their addresses; a chain is the list of identifiers in next-pointer order,
newest pushed first. -/
def setPrev : List Nat → List (Nat × Nat)
  | a :: b :: t => (b, a) :: setPrev (b :: t)
  | _ => []

/-- The backward walk of Logger::dump_que: start at the node returned by
get_tail and follow prev links until an unset (null) prev is met. The fuel
argument bounds the number of followed links so the walk is total. -/
def backWalk (pm : List (Nat × Nat)) : Nat → Nat → List Nat
  | 0, x => [x]
  | fuel + 1, x =>
      match pm.lookup x with
      | none => [x]
      | some q => x :: backWalk pm fuel q

/-- Every step of a candidate walk follows the prev map. -/
def chainSteps (pm : List (Nat × Nat)) : List Nat → Prop
  | x :: y :: t => pm.lookup x = some y ∧ chainSteps pm (y :: t)
  | _ => True

theorem backWalk_follows (pm : List (Nat × Nat)) :
    ∀ (d : List Nat) (x : Nat) (fuel : Nat),
      chainSteps pm (x :: d) →
      pm.lookup (d.getLastD x) = none →
      d.length ≤ fuel →
      backWalk pm fuel x = x :: d := by
  intro d
  induction d with
  | nil =>
      intro x fuel _ hlast _
      simp only [List.getLastD_eq_getLast?, List.getLast?_nil,
        Option.getD_none] at hlast
      cases fuel with
      | zero => rfl
      | succ f => simp [backWalk, hlast]
  | cons y d ih =>
      intro x fuel hsteps hlast hfuel
      obtain ⟨hx, hrest⟩ := hsteps
      cases fuel with
      | zero => simp at hfuel
      | succ f =>
          simp only [backWalk, hx]
          have hlast2 : pm.lookup (d.getLastD y) = none := by
            rw [List.getLastD_cons] at hlast
            exact hlast
          have hfuel2 : d.length ≤ f := by
            simp only [List.length_cons] at hfuel
            omega
          rw [ih y f hrest hlast2 hfuel2]

theorem lookup_setPrev_none :
    ∀ (c : List Nat) (x : Nat), x ∉ c.tail → (setPrev c).lookup x = none := by
  intro c
  induction c with
  | nil => intro x _; rfl
  | cons a c ih =>
      intro x hx
      cases c with
      | nil => rfl
      | cons b t =>
          simp only [List.tail_cons, List.mem_cons, not_or] at hx
          have hxb : (x == b) = false := by
            simp only [beq_eq_false_iff_ne, ne_eq]
            exact hx.1
          have htail : (setPrev (b :: t)).lookup x = none :=
            ih x (by simpa using hx.2)
          simp [setPrev, List.lookup, hxb, htail]

theorem chainSteps_cons_pm (k v : Nat) (pm : List (Nat × Nat)) :
    ∀ (l : List Nat), chainSteps pm l → (∀ x ∈ l.dropLast, x ≠ k) →
      chainSteps ((k, v) :: pm) l := by
  intro l
  induction l with
  | nil => intro _ _; trivial
  | cons x l ih =>
      cases l with
      | nil => intro _ _; trivial
      | cons y t =>
          intro hs hmem
          obtain ⟨hx, hrest⟩ := hs
          have hxk : (x == k) = false := by
            simp only [beq_eq_false_iff_ne, ne_eq]
            exact hmem x (by rw [List.dropLast_cons₂]; exact List.mem_cons_self x _)
          refine ⟨?_, ?_⟩
          · simp [List.lookup, hxk, hx]
          · refine ih hrest ?_
            intro z hz
            refine hmem z ?_
            rw [List.dropLast_cons₂]
            exact List.mem_cons_of_mem x hz

theorem chainSteps_append_one (pm : List (Nat × Nat)) (a : Nat) :
    ∀ (l : List Nat), l ≠ [] → chainSteps pm l →
      pm.lookup (l.getLastD 0) = some a → chainSteps pm (l ++ [a]) := by
  intro l
  induction l with
  | nil => intro h; exact absurd rfl h
  | cons x l ih =>
      intro _ hs hlast
      cases l with
      | nil =>
          refine ⟨?_, trivial⟩
          simpa [List.getLastD_cons] using hlast
      | cons y t =>
          obtain ⟨hx, hrest⟩ := hs
          refine ⟨hx, ?_⟩
          refine ih (by simp) hrest ?_
          rw [List.getLastD_cons] at hlast
          rw [List.getLastD_cons]
          rw [List.getLastD_cons] at hlast
          exact hlast

theorem setPrev_keys : ∀ (c : List Nat), (setPrev c).map Prod.fst = c.tail := by
  intro c
  induction c with
  | nil => rfl
  | cons a c ih =>
      cases c with
      | nil => rfl
      | cons b t =>
          simp only [setPrev, List.map_cons, List.tail_cons]
          rw [show ((setPrev (b :: t)).map Prod.fst) = (b :: t).tail from ih]
          rfl

theorem setPrev_path :
    ∀ (c : List Nat), c.Nodup → chainSteps (setPrev c) c.reverse := by
  intro c
  induction c with
  | nil => intro _; trivial
  | cons a c ih =>
      intro hnd
      cases c with
      | nil => trivial
      | cons b t =>
          obtain ⟨ha, hnd2⟩ := List.nodup_cons.mp hnd
          have hb_t : b ∉ t := (List.nodup_cons.mp hnd2).1
          have hstep : chainSteps (setPrev (b :: t)) ((b :: t).reverse) :=
            ih hnd2
          have hext : chainSteps ((b, a) :: setPrev (b :: t))
              ((b :: t).reverse) := by
            refine chainSteps_cons_pm b a _ _ hstep ?_
            intro z hz
            rw [List.reverse_cons, List.dropLast_concat] at hz
            intro hzb
            subst hzb
            exact hb_t (List.mem_reverse.mp hz)
          have hlookup_b : ((b, a) :: setPrev (b :: t)).lookup b = some a := by
            simp [List.lookup]
          have hlastb : ((b :: t).reverse).getLastD 0 = b := by
            rw [List.reverse_cons]
            simp [List.getLastD_eq_getLast?, List.getLast?_concat]
          have happ : chainSteps ((b, a) :: setPrev (b :: t))
              ((b :: t).reverse ++ [a]) := by
            refine chainSteps_append_one _ a _ (by simp) hext ?_
            rw [hlastb]
            exact hlookup_b
          rw [show (a :: b :: t).reverse = (b :: t).reverse ++ [a] from by
            rw [List.reverse_cons]]
          exact happ

/-- Claim C2: on a non-empty detached chain (listed newest first, with
distinct node addresses), get_tail makes exactly one prev assignment per
non-head node, assigning each node its predecessor, and the backward walk of
dump_que from the node get_tail returns visits the nodes in exactly the
reverse of the forward chain order, i.e. oldest first and each node exactly
once. -/
theorem c2_drain_emits_chronological (c : List Nat) (hne : c ≠ [])
    (hnd : c.Nodup) (fuel : Nat) (hf : c.length ≤ fuel + 1) :
    (setPrev c).map Prod.fst = c.tail ∧
    backWalk (setPrev c) fuel (c.getLast hne) = c.reverse := by
  refine ⟨setPrev_keys c, ?_⟩
  obtain ⟨hd, tl, rfl⟩ : ∃ hd tl, c = hd :: tl := by
    cases c with
    | nil => exact absurd rfl hne
    | cons hd tl => exact ⟨hd, tl, rfl⟩
  have hrev : (hd :: tl).reverse
      = (hd :: tl).getLast hne :: ((hd :: tl).dropLast).reverse := by
    conv_lhs => rw [← List.dropLast_append_getLast hne]
    rw [List.reverse_append]
    rfl
  have hsteps : chainSteps (setPrev (hd :: tl)) ((hd :: tl).reverse) :=
    setPrev_path _ hnd
  rw [hrev] at hsteps
  have hhead : (((hd :: tl).dropLast).reverse).getLastD
      ((hd :: tl).getLast hne) = hd := by
    have h1 : (((hd :: tl).dropLast).reverse).getLastD
        ((hd :: tl).getLast hne)
        = ((hd :: tl).getLast hne :: ((hd :: tl).dropLast).reverse).getLastD
            0 := (List.getLastD_cons 0 _ _).symm
    rw [h1, ← hrev]
    simp [List.getLastD_eq_getLast?, List.getLast?_reverse]
  have hlast : (setPrev (hd :: tl)).lookup
      ((((hd :: tl).dropLast).reverse).getLastD ((hd :: tl).getLast hne))
      = none := by
    rw [hhead]
    refine lookup_setPrev_none _ hd ?_
    simpa using (List.nodup_cons.mp hnd).1
  have hflen : (((hd :: tl).dropLast).reverse).length ≤ fuel := by
    rw [List.length_reverse, List.length_dropLast]
    simp only [List.length_cons] at hf ⊢
    omega
  have hwalk := backWalk_follows (setPrev (hd :: tl))
    (((hd :: tl).dropLast).reverse) ((hd :: tl).getLast hne) fuel hsteps
    hlast hflen
  rw [hwalk, ← hrev]

theorem c2_witness :
    backWalk (setPrev [3, 2, 1]) 3 (([3, 2, 1] : List Nat).getLast
      (by decide)) = [1, 2, 3] := by
  have h := (c2_drain_emits_chronological [3, 2, 1] (by decide) (by decide) 3
    (by decide)).2
  simpa using h

/-- Events observable on log_stream_mutex during one Logger::dump_que pass:
the lock_guard acquisition, each line write performed under it, and the
release at the end of the guard scope. -/
inductive LockEv where
  | acq
  | rel
  | wr (v : Nat)
deriving DecidableEq

/-- The lock/write trace of Logger::dump_que on a taken chain (newest
first): nothing at all for an empty chain; otherwise one acquisition of
log_stream_mutex, then the writes in chronological order, then one
release. -/
def dumpTrace (chain : List Nat) : List LockEv :=
  match chain with
  | [] => []
  | _ => LockEv.acq :: (chain.reverse.map LockEv.wr ++ [LockEv.rel])

/-- Is this event a line write? -/
def isWr : LockEv → Bool
  | LockEv.wr _ => true
  | _ => false

/-- log_stream_mutex is free after the first k events of a trace iff its
acquisitions and releases balance there; only at such a point could a
concurrent SetLogFile call acquire the mutex. -/
def lockFreeAt (t : List LockEv) (k : Nat) : Bool :=
  (t.take k).count LockEv.acq == (t.take k).count LockEv.rel

/-- Is there a point strictly after position i and at or before position j
where the lock is free? -/
def freePointBetween (t : List LockEv) (i j : Nat) : Bool :=
  (List.range (j + 1)).any (fun k => decide (i < k) && lockFreeAt t k)

/-- Claim C3 as stated: between any two line writes of the same dump_que
pass there is a point at which the sink lock is free, so a concurrent
SetLogFile call could acquire it there. -/
def lockFreeBetweenWrites (chain : List Nat) : Prop :=
  ∀ i < (dumpTrace chain).length, ∀ j < (dumpTrace chain).length,
    i < j →
    isWr ((dumpTrace chain).getD i LockEv.acq) = true →
    isWr ((dumpTrace chain).getD j LockEv.acq) = true →
    freePointBetween (dumpTrace chain) i j = true

/-- Claim C3 is false on the code: already for a two-record chain the pass
trace is acquire, write, write, release, and there is no point between the
two writes at which log_stream_mutex is free — dump_que takes the lock once
before the backward walk and holds it across the whole pass. -/
theorem c3_counterexample : ¬ lockFreeBetweenWrites [2, 1] := by
  intro h
  have h12 := h 1 (by decide) 2 (by decide) (by decide) (by decide) (by decide)
  exact absurd h12 (by decide)

theorem ev_acq_not_mem_writes (chain : List Nat) :
    LockEv.acq ∉ chain.reverse.map LockEv.wr := by
  intro hmem
  simp only [List.mem_map] at hmem
  obtain ⟨v, _, hv⟩ := hmem
  exact LockEv.noConfusion hv

theorem ev_rel_not_mem_writes (chain : List Nat) :
    LockEv.rel ∉ chain.reverse.map LockEv.wr := by
  intro hmem
  simp only [List.mem_map] at hmem
  obtain ⟨v, _, hv⟩ := hmem
  exact LockEv.noConfusion hv

/-- Claim C3 amended: log_stream_mutex — the lock shared by the write path
and SetLogFile — is acquired exactly once per dump_que pass, before the
first write, and released only after the last write of the pass; at every
point strictly inside the trace the lock is held. A concurrent SetLogFile
can therefore acquire the lock only before or after a whole drain pass,
never between two line writes of the same pass; producers never touch this
lock. -/
theorem c3_lock_held_across_pass (chain : List Nat) (hne : chain ≠ []) :
    dumpTrace chain
      = LockEv.acq :: (chain.reverse.map LockEv.wr ++ [LockEv.rel]) ∧
    ∀ k, 0 < k → k < (dumpTrace chain).length →
      lockFreeAt (dumpTrace chain) k = false := by
  have hshape : dumpTrace chain
      = LockEv.acq :: (chain.reverse.map LockEv.wr ++ [LockEv.rel]) := by
    cases chain with
    | nil => exact absurd rfl hne
    | cons a t => rfl
  refine ⟨hshape, ?_⟩
  intro k hk0 hklen
  rw [hshape] at hklen ⊢
  obtain ⟨k2, rfl⟩ : ∃ k2, k = k2 + 1 := ⟨k - 1, by omega⟩
  have hk2 : k2 ≤ (chain.reverse.map LockEv.wr).length := by
    simp at hklen ⊢
    omega
  have htake : (LockEv.acq :: (chain.reverse.map LockEv.wr
        ++ [LockEv.rel])).take (k2 + 1)
      = LockEv.acq :: ((chain.reverse.map LockEv.wr).take k2) := by
    rw [List.take_succ_cons, List.take_append_of_le_length hk2]
  unfold lockFreeAt
  rw [htake]
  have hcacq : (LockEv.acq
      :: ((chain.reverse.map LockEv.wr).take k2)).count LockEv.acq = 1 := by
    rw [List.count_cons_self]
    have h0 : ((chain.reverse.map LockEv.wr).take k2).count LockEv.acq = 0 :=
      List.count_eq_zero.mpr
        (fun hmem => ev_acq_not_mem_writes chain (List.take_subset _ _ hmem))
    omega
  have hcrel : (LockEv.acq
      :: ((chain.reverse.map LockEv.wr).take k2)).count LockEv.rel = 0 := by
    rw [List.count_cons_of_ne (by intro h; exact LockEv.noConfusion h)]
    exact List.count_eq_zero.mpr
      (fun hmem => ev_rel_not_mem_writes chain (List.take_subset _ _ hmem))
  rw [hcacq, hcrel]
  rfl

theorem c3_witness :
    dumpTrace [2, 1]
      = LockEv.acq :: (([2, 1] : List Nat).reverse.map LockEv.wr
          ++ [LockEv.rel]) ∧
    lockFreeAt (dumpTrace [2, 1]) 2 = false :=
  ⟨(c3_lock_held_across_pass [2, 1] (by decide)).1,
   (c3_lock_held_across_pass [2, 1] (by decide)).2 2 (by decide) (by decide)⟩

/-- A record taken by the drain worker, tagged with whether writing it fails
(the exception thrown by the stream insertion and caught inside
Logger::write). -/
structure WRec where
  val : Nat
  fails : Bool
deriving DecidableEq

/-- Logger::write on one record: total — a failing write is caught inside
write and reported on the side channel (stderr), a succeeding one appends
one line to the current output; nothing ever propagates out of write. -/
def writeStep (acc : List Nat × List Nat) (r : WRec) : List Nat × List Nat :=
  if r.fails then (acc.1, acc.2 ++ [r.val]) else (acc.1 ++ [r.val], acc.2)

/-- One Logger::dump_que pass over a taken batch (newest first): every
record of the batch is processed oldest first, whether or not earlier
writes of the same pass failed. -/
def drainPass (acc : List Nat × List Nat) (batch : List WRec) :
    List Nat × List Nat :=
  batch.reverse.foldl writeStep acc

/-- Result of a whole run of get_it_done: the lines written, the
side-channel error reports, and the number of executed drain passes. -/
structure DrainResult where
  out : List Nat
  errs : List Nat
  passes : Nat
deriving DecidableEq

/-- The get_it_done loop: one sleep-and-drain pass for every batch taken
while the shutdown flag was still false (the cycles list), then, once
shutdown is observed, exactly one final takeAll-and-drain pass. The loop
never exits for any other reason. -/
def get_it_done : List (List WRec) → List WRec →
    (List Nat × List Nat) → DrainResult
  | [], final, acc => ⟨(drainPass acc final).1, (drainPass acc final).2, 1⟩
  | b :: cycles, final, acc =>
      let r := get_it_done cycles final (drainPass acc b)
      ⟨r.out, r.errs, r.passes + 1⟩

/-- The records of a run in the order the worker processes them. -/
def processedOrder (cycles : List (List WRec)) (final : List WRec) :
    List WRec :=
  (cycles.map List.reverse).flatten ++ final.reverse

theorem foldl_writeStep (l : List WRec) :
    ∀ acc, l.foldl writeStep acc
      = (acc.1 ++ (l.filter (fun r => !r.fails)).map WRec.val,
         acc.2 ++ (l.filter (fun r => r.fails)).map WRec.val) := by
  induction l with
  | nil => intro acc; simp
  | cons r l ih =>
      intro acc
      cases hr : r.fails with
      | true =>
          simp [List.foldl_cons, writeStep, hr, ih, List.filter_cons,
            List.append_assoc]
      | false =>
          simp [List.foldl_cons, writeStep, hr, ih, List.filter_cons,
            List.append_assoc]

theorem drainPass_spec (acc : List Nat × List Nat) (batch : List WRec) :
    drainPass acc batch
      = (acc.1 ++ (batch.reverse.filter (fun r => !r.fails)).map WRec.val,
         acc.2 ++ (batch.reverse.filter (fun r => r.fails)).map WRec.val) := by
  unfold drainPass
  rw [foldl_writeStep]

theorem get_it_done_spec :
    ∀ (cycles : List (List WRec)) (final : List WRec)
      (acc : List Nat × List Nat),
      get_it_done cycles final acc
        = ⟨acc.1 ++ ((processedOrder cycles final).filter
              (fun r => !r.fails)).map WRec.val,
           acc.2 ++ ((processedOrder cycles final).filter
              (fun r => r.fails)).map WRec.val,
           cycles.length + 1⟩ := by
  intro cycles
  induction cycles with
  | nil =>
      intro final acc
      simp only [get_it_done, drainPass_spec, processedOrder, List.map_nil,
        List.flatten_nil, List.nil_append, List.length_nil]
  | cons b cycles ih =>
      intro final acc
      simp only [get_it_done, ih, drainPass_spec, processedOrder,
        List.map_cons, List.flatten_cons, List.append_assoc,
        List.filter_append, List.map_append, List.length_cons,
        DrainResult.mk.injEq]

/-- Claim C4: whatever per-record write failures occur inside the drain
loop, each failure is caught locally and reported on the side channel, and
the loop continues with the next record and the next cycle: every taken
record is processed exactly once (the succeeding writes appear in order in
the output, the failing ones in order on the error channel, and together
they are a permutation of everything taken), and the number of executed
passes is the number of pre-shutdown cycles plus the single final pass —
termination is governed solely by the shutdown signal, never by an error,
and nothing propagates to a producer thread. -/
theorem c4_drain_errors_contained (cycles : List (List WRec))
    (final : List WRec) :
    (get_it_done cycles final ([], [])).out
        = ((processedOrder cycles final).filter
            (fun r => !r.fails)).map WRec.val ∧
    (get_it_done cycles final ([], [])).errs
        = ((processedOrder cycles final).filter
            (fun r => r.fails)).map WRec.val ∧
    (get_it_done cycles final ([], [])).passes = cycles.length + 1 ∧
    ((get_it_done cycles final ([], [])).out
        ++ (get_it_done cycles final ([], [])).errs).Perm
      ((processedOrder cycles final).map WRec.val) := by
  have h := get_it_done_spec cycles final ([], [])
  rw [h]
  refine ⟨by simp, by simp, rfl, ?_⟩
  have h1 : ((processedOrder cycles final).filter (fun r => r.fails)
      ++ (processedOrder cycles final).filter (fun r => !r.fails)).Perm
      (processedOrder cycles final) :=
    List.filter_append_perm (fun r => r.fails) (processedOrder cycles final)
  have h2 : ((processedOrder cycles final).filter (fun r => !r.fails)
      ++ (processedOrder cycles final).filter (fun r => r.fails)).Perm
      (processedOrder cycles final) :=
    (List.perm_append_comm).trans h1
  have h3 := h2.map WRec.val
  simpa [List.map_append] using h3

/-- State of the output sink manager: the current destination handle (none
means the console fallback), the handles already handed to the closer
(which flushes and closes them), and the number of side-channel IOError
reports. -/
structure Sink where
  stream : Option Nat
  closedHandles : List Nat
  ioErrors : Nat
deriving DecidableEq

/-- Logger::SetLogFile under log_stream_mutex: an empty name clears the
destination and hands the previous handle, if any, to the closer; otherwise
the file is opened — openResult is the answer of the outside world — and on
success the new handle is swapped in while the previous one goes to the
closer, but on failure an IOError is reported on the side channel and
nothing else changes. The function is total: the failure is never raised to
the caller. -/
def SetLogFile (s : Sink) (fname : String) (openResult : Option Nat) :
    Sink :=
  if fname = "" then
    ⟨none, s.closedHandles ++ s.stream.toList, s.ioErrors⟩
  else
    match openResult with
    | some h => ⟨some h, s.closedHandles ++ s.stream.toList, s.ioErrors⟩
    | none => ⟨s.stream, s.closedHandles, s.ioErrors + 1⟩

/-- Claim C6: a SetLogFile call with a non-empty path whose open fails
leaves the manager unchanged — the previous destination (or the absence of
one) stays current and no handle is closed — and reports exactly one
IOError on the side channel instead of raising. -/
theorem c6_failed_open_keeps_destination (s : Sink) (fname : String)
    (hne : fname ≠ "") :
    (SetLogFile s fname none).stream = s.stream ∧
    (SetLogFile s fname none).closedHandles = s.closedHandles ∧
    (SetLogFile s fname none).ioErrors = s.ioErrors + 1 := by
  simp [SetLogFile, hne]

theorem c6_witness :
    (SetLogFile ⟨some 7, [], 0⟩ "f" none).stream = some 7 ∧
    (SetLogFile ⟨some 7, [], 0⟩ "f" none).closedHandles = ([] : List Nat) ∧
    (SetLogFile ⟨some 7, [], 0⟩ "f" none).ioErrors = 0 + 1 :=
  c6_failed_open_keeps_destination ⟨some 7, [], 0⟩ "f" (by decide)

/-- Worker-lifecycle view of one Logger: whether the background thread is
running, the shutdown flag, and the sink manager state. -/
structure WorkerSt where
  running : Bool
  shutdown : Bool
  sink : Sink
deriving DecidableEq

/-- Logger::ExitLogger: a no-op when no worker is running; otherwise it
sets the shutdown flag, joins the worker (which performs its final drain
pass), deletes it, and then clears the destination with SetLogFile on the
empty name — flushing and closing the previous handle. -/
def ExitLogger (s : WorkerSt) : WorkerSt :=
  if s.running then
    ⟨false, true, SetLogFile s.sink "" none⟩
  else s

/-- Where one Logger::write line goes: to the open destination if there is
one, otherwise to the console fallback. -/
inductive Dest where
  | file (h : Nat)
  | console
deriving DecidableEq

/-- The destination selection made inside Logger::write. -/
def writeDest (stream : Option Nat) : Dest :=
  match stream with
  | some h => Dest.file h
  | none => Dest.console

/-- Claim C9: a Stop (ExitLogger) that actually shuts down a running worker
clears the current destination — the old handle is handed to the closer,
which flushes and closes it — so Stop does not preserve the sink frame:
after a subsequent Start, writes go to the console fallback until
SetLogFile is called again. -/
theorem c9_stop_clears_destination (s : WorkerSt) (h : s.running = true) :
    (ExitLogger s).sink.stream = none ∧
    (ExitLogger s).sink.closedHandles
      = s.sink.closedHandles ++ s.sink.stream.toList ∧
    writeDest (ExitLogger s).sink.stream = Dest.console ∧
    (ExitLogger s).running = false := by
  simp [ExitLogger, h, SetLogFile, writeDest]

theorem c9_witness :
    (ExitLogger ⟨true, false, ⟨some 7, [], 0⟩⟩).sink.stream = none ∧
    (ExitLogger ⟨true, false, ⟨some 7, [], 0⟩⟩).sink.closedHandles = [7] ∧
    writeDest (ExitLogger ⟨true, false, ⟨some 7, [], 0⟩⟩).sink.stream
      = Dest.console ∧
    (ExitLogger ⟨true, false, ⟨some 7, [], 0⟩⟩).running = false :=
  c9_stop_clears_destination ⟨true, false, ⟨some 7, [], 0⟩⟩ rfl

/-- Claim C10: severity_to_str indexes a four-entry name table with the raw
severity value and performs no bounds check; under the precondition that
the validation in Log establishes, the index is non-negative and within the
bounds of the table, so the unchecked access cannot go out of bounds on any call
reachable from a validated Log call. -/
theorem c10_severity_table_safe (level : Int) (msg : String)
    (h : validLog level msg = true) :
    severity_names.length = 4 ∧
    0 ≤ level ∧
    level.toNat < severity_names.length ∧
    (severity_to_str level).isSome = true := by
  have h1 : (decide (level < 0) || decide (3 < level) || msg == "")
      = false := by
    have h2 := h
    unfold validLog at h2
    rwa [Bool.not_eq_true'] at h2
  simp only [Bool.or_eq_false_iff, decide_eq_false_iff_not] at h1
  obtain ⟨⟨ha, hb⟩, -⟩ := h1
  have hlen : severity_names.length = 4 := rfl
  have hlt : level.toNat < severity_names.length := by
    rw [hlen]
    omega
  refine ⟨hlen, by omega, hlt, ?_⟩
  unfold severity_to_str
  rw [if_neg ha, List.get?_eq_get hlt]
  rfl

theorem c10_witness :
    severity_names.length = 4 ∧
    (0 : Int) ≤ 3 ∧
    (3 : Int).toNat < severity_names.length ∧
    (severity_to_str 3).isSome = true :=
  c10_severity_table_safe 3 "x" (by decide)

end LoggerModel
